import Mathlib

/-!
# Verification of the `lutfiy` ZWNJ correction engine

A shallow embedding of `src/lutfiy/ngram_zwnj.py` (class `GenericNGramPredictor`).

Conventions of the embedding:
* Python `str` values become `List Char`; slicing `t[i:j]` becomes
  `(t.drop i).take (j - i)` with the usual clamping semantics.
* The integer count tables (`defaultdict(int)`) become functions
  `List Char → ℕ`; absent keys read as `0`, exactly as `defaultdict` does.
* Python's (real-valued) probability arithmetic is embedded exactly over `ℚ`
  where the code computes rational expressions, and over `ℝ` where the code
  applies `math.log` / `math.exp`.  The real-valued sequence score
  `exp(Σ log pᵢ / k)` is additionally mirrored by the computable pair
  `(Π pᵢ, k) : ℚ × ℕ`; the bridge theorems below show the mirror determines
  the real score and its ordering, so the decision logic can stay computable.
* Raising `ValueError("Model must be trained ...")` becomes returning
  `Except.error PredError.notTrained`.
-/

/-- The zero-width non-joiner character `'‌'` used throughout the code. -/
def zwnjChar : Char := '‌'

/-- The marker letter ه (U+0647) whose trailing boundary is the decision point. -/
def hehChar : Char := 'ه'

/-- Python's `\s` class over the ASCII range (space, tab, newline, return,
vertical tab, form feed), as used by `re.sub(r'\s+', ' ', text.strip())`. -/
def pyIsSpace (c : Char) : Bool :=
  c = ' ' || c = '\t' || c = '\n' || c = '\r' || c = '\x0b' || c = '\x0c'

/-- `text.strip()`: remove leading and trailing whitespace. -/
def pyStrip (t : List Char) : List Char :=
  ((t.dropWhile pyIsSpace).reverse.dropWhile pyIsSpace).reverse

/-- Character-by-character run collapser: a whitespace character is emitted
as a single space only when the previous character was not whitespace. -/
def collapseWsAux : Bool → List Char → List Char
  | _, [] => []
  | prevWs, c :: rest =>
    if pyIsSpace c then
      if prevWs then collapseWsAux true rest
      else ' ' :: collapseWsAux true rest
    else c :: collapseWsAux false rest

/-- `re.sub(r'\s+', ' ', ·)`: collapse every maximal run of whitespace to a
single space. -/
def collapseWs (l : List Char) : List Char :=
  collapseWsAux false l

/-- `text = re.sub(r'\s+', ' ', text.strip())` from `train`. -/
def cleanText (t : List Char) : List Char :=
  collapseWs (pyStrip t)

/-- The n-grams `text[i:i+n]` for `i in range(len(text) - n + 1)`.
`t.length + 1 - n` (truncated ℕ subtraction) is exactly
`max 0 (len(text) - n + 1)`, the number of iterations of the Python loop. -/
def ngramsOf (n : ℕ) (t : List Char) : List (List Char) :=
  (List.range (t.length + 1 - n)).map fun i => (t.drop i).take n

/-- State of a `GenericNGramPredictor`. -/
@[ext]
structure NGramModel where
  n : ℕ
  ngramCounts : List Char → ℕ
  contextCounts : List Char → ℕ
  vocab : Finset Char
  smoothing : ℚ
  totalNgrams : ℕ
  isTrained : Bool

/-- `__init__(self, n=4)` with no model path: fresh empty counters. -/
def initModel (n : ℕ) (smoothing : ℚ) : NGramModel :=
  { n := n
    ngramCounts := fun _ => 0
    contextCounts := fun _ => 0
    vocab := ∅
    smoothing := smoothing
    totalNgrams := 0
    isTrained := false }

/-- All n-grams contributed by a corpus: each text is cleaned and its
n-grams extracted, in order (the loop body of `train`). -/
def trainedGrams (n : ℕ) (texts : List (List Char)) : List (List Char) :=
  texts.flatMap fun t => ngramsOf n (cleanText t)

/-- `train(self, texts)`: reset all counters, then for every n-gram occurrence
increment its count, the total, the vocabulary membership of its characters
and (when n > 1) the count of its context (the n-gram minus its last
character).  The per-occurrence increments are summarised as counts over the
full occurrence list `trainedGrams`. -/
def NGramModel.train (m : NGramModel) (texts : List (List Char)) : NGramModel :=
  let grams := trainedGrams m.n texts
  { m with
    ngramCounts := fun g => grams.count g
    contextCounts := fun c => if 1 < m.n then (grams.map List.dropLast).count c else 0
    vocab := grams.flatten.toFinset
    totalNgrams := grams.length
    isTrained := true }

/-- The single error kind of the core: "Model must be trained or loaded". -/
inductive PredError where
  | notTrained
deriving DecidableEq

/-- The arithmetic of `get_ngram_probability` (after the trained check):
conditional probability with Laplace smoothing, falling back to the
unconditional estimate when the context count is zero; joint probability
when no context is given. -/
def NGramModel.probQ (m : NGramModel) (ngram : List Char)
    (given_context : Option (List Char)) : ℚ :=
  match given_context with
  | some ctx =>
    let context_count := m.contextCounts ctx
    let ngram_count := m.ngramCounts ngram
    let vocab_size := m.vocab.card
    if context_count = 0 then
      ((ngram_count : ℚ) + m.smoothing) /
        ((m.totalNgrams : ℚ) + m.smoothing * (vocab_size : ℚ))
    else
      ((ngram_count : ℚ) + m.smoothing) /
        ((context_count : ℚ) + m.smoothing * (vocab_size : ℚ))
  | none =>
    let vocab_size := m.vocab.card ^ m.n
    ((m.ngramCounts ngram : ℚ) + m.smoothing) /
      ((m.totalNgrams : ℚ) + m.smoothing * (vocab_size : ℚ))

/-- `get_ngram_probability(self, ngram, given_context=None)`. -/
def NGramModel.get_ngram_probability (m : NGramModel) (ngram : List Char)
    (given_context : Option (List Char)) : Except PredError ℚ :=
  if m.isTrained = false then .error .notTrained
  else .ok (m.probQ ngram given_context)

/-- Exact representation of one sequence score.  The Python code returns the
real number `exp(totalLogProb / count)`; with every probability positive this
equals `(Π probabilities) ^ (1 / count)`, so the pair `(product, count)`
determines the score exactly (see `realScore` and the bridge theorems). -/
structure SeqScore where
  prod : ℚ
  count : ℕ
deriving DecidableEq

/-- The substring `text[start_pos : min(start_pos + window_size, len(text))]`
taken by `get_sequence_score`. -/
def windowSeq (text : List Char) (start_pos window_size : ℕ) : List Char :=
  (text.drop start_pos).take (min (start_pos + window_size) text.length - start_pos)

/-- The per-window conditional probabilities of `get_sequence_score`:
for each n-wide window of the sequence, `P(window | window minus its last
character)`. -/
def NGramModel.windowProbs (m : NGramModel) (sequence : List Char) : List ℚ :=
  (ngramsOf m.n sequence).map fun g => m.probQ g (some g.dropLast)

/-- Computable mirror of `get_sequence_score` (after the trained check).
Branches mirror the source: the short-sequence fallback returns the joint
probability (count 1, since `p = p^(1/1)`); the dead `count == 0` branch
returns the smoothing constant; the main branch accumulates the product of
the window probabilities (the exact counterpart of summing their logs) and
their number. -/
def NGramModel.seqScoreQ (m : NGramModel) (text : List Char)
    (start_pos window_size : ℕ) : SeqScore :=
  let sequence := windowSeq text start_pos window_size
  if sequence.length < m.n then
    ⟨m.probQ sequence none, 1⟩
  else
    let probs := m.windowProbs sequence
    if probs.length = 0 then ⟨m.smoothing, 1⟩
    else ⟨probs.prod, probs.length⟩

/-- The real number a `SeqScore` stands for: `exp((Σ log pᵢ) / count)` with
`Σ log pᵢ = log (Π pᵢ)` for positive probabilities. -/
noncomputable def SeqScore.realScore (s : SeqScore) : ℝ :=
  Real.exp (Real.log (s.prod : ℝ) / (s.count : ℝ))

/-- `get_sequence_score(self, text, start_pos, window_size)`, literally: the
trained check, the clamped window, the short-sequence fallback, then
`exp` of the mean of the natural logs of the conditional probabilities. -/
noncomputable def NGramModel.get_sequence_score (m : NGramModel)
    (text : List Char) (start_pos window_size : ℕ) : Except PredError ℝ :=
  if m.isTrained = false then .error .notTrained
  else
    let sequence := windowSeq text start_pos window_size
    if sequence.length < m.n then
      .ok ((m.probQ sequence none : ℚ) : ℝ)
    else
      let logs := (m.windowProbs sequence).map fun p : ℚ => Real.log (p : ℝ)
      let count := (m.windowProbs sequence).length
      if count = 0 then .ok ((m.smoothing : ℚ) : ℝ)
      else .ok (Real.exp (logs.sum / (count : ℝ)))

/-- The three candidate edits of `decide_after_heh`. -/
inductive ZOption where
  | no_change
  | insert_zwnj
  | replace_space_with_zwnj
deriving DecidableEq

/-- The option dictionary built by `decide_after_heh`: `no_change` is always
inserted first, then conditionally `insert_zwnj`, then conditionally
`replace_space_with_zwnj` (this insertion order is the dict iteration
order, which drives the tie-break of `max`). -/
structure DecisionOptions where
  no_change : SeqScore
  insert_zwnj : Option SeqScore
  replace_space_with_zwnj : Option SeqScore
deriving DecidableEq

/-- Python `text[:i] + [x] + text[i:]` / `list.insert(i, x)` for `i ≥ 0`. -/
def pyInsert (t : List Char) (i : ℕ) (c : Char) : List Char :=
  t.take i ++ [c] ++ t.drop i

/-- The body of `decide_after_heh` after the trained check, with the
window-size default already resolved:
option 1 scores the unmodified text at `heh_pos`;
option 2 (guarded by `heh_pos + 1 ≤ len(text)`) scores
`text[:heh_pos+1] + ZWNJ + text[heh_pos+1:]` at `heh_pos` with window
widened by one; option 3 (guarded by a following literal space) scores
`text[:heh_pos+1] + ZWNJ + text[heh_pos+2:]` at `heh_pos`. -/
def NGramModel.decideOptions (m : NGramModel) (text : List Char)
    (heh_pos window_size : ℕ) : DecisionOptions :=
  { no_change := m.seqScoreQ text heh_pos window_size
    insert_zwnj :=
      if heh_pos + 1 ≤ text.length then
        some (m.seqScoreQ (pyInsert text (heh_pos + 1) zwnjChar)
          heh_pos (window_size + 1))
      else none
    replace_space_with_zwnj :=
      if heh_pos + 1 < text.length ∧ text.getD (heh_pos + 1) ' ' = ' ' then
        some (m.seqScoreQ
          (text.take (heh_pos + 1) ++ [zwnjChar] ++ text.drop (heh_pos + 2))
          heh_pos window_size)
      else none }

/-- `decide_after_heh(self, text, heh_pos, window_size=None)`: trained check,
default window `2n`, then the three candidate scores. -/
def NGramModel.decide_after_heh (m : NGramModel) (text : List Char)
    (heh_pos : ℕ) (window_size : Option ℕ) : Except PredError DecisionOptions :=
  if m.isTrained = false then .error .notTrained
  else .ok (m.decideOptions text heh_pos (window_size.getD (m.n * 2)))

/-- The exact counterpart of comparing two real scores: for positive products
and positive counts, `exp(log p₁ / c₁) ≤ exp(log p₂ / c₂) ↔ p₁^c₂ ≤ p₂^c₁`
(cross-multiplied exponents), which is decidable over `ℚ`. -/
def SeqScore.le (x y : SeqScore) : Prop :=
  x.prod ^ y.count ≤ y.prod ^ x.count

instance : DecidableRel SeqScore.le := fun x y =>
  inferInstanceAs (Decidable (x.prod ^ y.count ≤ y.prod ^ x.count))

/-- `max(options.keys(), key=lambda k: options[k])`: Python's `max` returns
the FIRST key attaining the maximal value, in dict insertion order
`no_change`, `insert_zwnj`, `replace_space_with_zwnj`.  So a later key is
chosen only when its score strictly exceeds every earlier applicable one. -/
def DecisionOptions.bestOption (o : DecisionOptions) : ZOption :=
  let insertBeatsNc : Bool :=
    match o.insert_zwnj with
    | some s => ! decide (SeqScore.le s o.no_change)
    | none => false
  let replBeats : Bool :=
    match o.replace_space_with_zwnj with
    | some s =>
      (! decide (SeqScore.le s o.no_change)) &&
        (match o.insert_zwnj with
         | some s' => ! decide (SeqScore.le s s')
         | none => true)
    | none => false
  if replBeats then .replace_space_with_zwnj
  else if insertBeatsNc then .insert_zwnj
  else .no_change

/-- `[i for i, char in enumerate(text) if char == 'ه']`. -/
def hehPositions (text : List Char) : List ℕ :=
  (List.range text.length).filter fun i => text.getD i ' ' = hehChar

/-- Applying the chosen option to the live buffer in `process_text`:
`insert_zwnj` inserts a ZWNJ at `current_pos + 1` and increments the offset;
`replace_space_with_zwnj` overwrites `result[current_pos + 1]` with ZWNJ
after re-checking it is still a space; `no_change` does nothing. -/
def applyBest (st : List Char × ℕ) (best : ZOption) (current_pos : ℕ) :
    List Char × ℕ :=
  match best with
  | .insert_zwnj => (pyInsert st.1 (current_pos + 1) zwnjChar, st.2 + 1)
  | .replace_space_with_zwnj =>
    (if current_pos + 1 < st.1.length ∧ st.1.getD (current_pos + 1) ' ' = ' '
     then st.1.set (current_pos + 1) zwnjChar else st.1, st.2)
  | .no_change => st

/-- One iteration of the `for original_pos in heh_positions` loop of
`process_text`: compute `current_pos = original_pos + offset`, decide on the
current buffer at `current_pos`, and apply the best option. -/
def NGramModel.processStep (m : NGramModel) (window_size : ℕ)
    (st : List Char × ℕ) (original_pos : ℕ) : List Char × ℕ :=
  let current_pos := original_pos + st.2
  let options := m.decideOptions st.1 current_pos window_size
  applyBest st options.bestOption current_pos

/-- `process_text(self, text, window_size=None)`: trained check, default
window `2n`, scan of the marker positions in the ORIGINAL text, then the
left-to-right fold of `processStep` starting from `(text, 0)`. -/
def NGramModel.process_text (m : NGramModel) (text : List Char)
    (window_size : Option ℕ) : Except PredError (List Char) :=
  if m.isTrained = false then .error .notTrained
  else
    let ws := window_size.getD (m.n * 2)
    .ok ((hehPositions text).foldl (m.processStep ws) (text, 0)).1

/-- One record of `analyze_text`.  The real-valued `confidence` is the best
score divided by the sum of all option scores (0 when that sum is 0). -/
structure AnalysisRecord where
  position : ℕ
  context : List Char
  options : DecisionOptions
  best_option : ZOption
  confidence : ℝ

/-- The real scores of the applicable options, in dict order. -/
noncomputable def DecisionOptions.realValues (o : DecisionOptions) : List ℝ :=
  o.no_change.realScore ::
    ((o.insert_zwnj.toList ++ o.replace_space_with_zwnj.toList).map
      SeqScore.realScore)

/-- The real score of a chosen key. -/
noncomputable def DecisionOptions.realValueOf (o : DecisionOptions) :
    ZOption → Option ℝ
  | .no_change => some o.no_change.realScore
  | .insert_zwnj => o.insert_zwnj.map SeqScore.realScore
  | .replace_space_with_zwnj => o.replace_space_with_zwnj.map SeqScore.realScore

/-- `analyze_text(self, text, window_size=None)`: trained check, default
window, then one `AnalysisRecord` per marker occurrence of the (unmodified)
text: its options, best option, the 5-character-radius display context
`text[max(0, pos-5) : min(len(text), pos+6)]`, and the confidence ratio. -/
noncomputable def NGramModel.analyze_text (m : NGramModel) (text : List Char)
    (window_size : Option ℕ) : Except PredError (List AnalysisRecord) :=
  if m.isTrained = false then .error .notTrained
  else
    let ws := window_size.getD (m.n * 2)
    .ok <| (hehPositions text).map fun pos =>
      let options := m.decideOptions text pos ws
      let best := options.bestOption
      { position := pos
        context := (text.drop (pos - 5)).take (min text.length (pos + 6) - (pos - 5))
        options := options
        best_option := best
        confidence :=
          if options.realValues.sum > 0 then
            ((options.realValueOf best).getD 0) / options.realValues.sum
          else 0 }

/-- The dict insertion order of `decide_after_heh`, which is the preference
order of Python's first-maximum `max`. -/
def prefRank : ZOption → ℕ
  | .no_change => 0
  | .insert_zwnj => 1
  | .replace_space_with_zwnj => 2

/-- Look up the score a key maps to (none when the option was not offered). -/
def DecisionOptions.scoreOf (o : DecisionOptions) : ZOption → Option SeqScore
  | .no_change => some o.no_change
  | .insert_zwnj => o.insert_zwnj
  | .replace_space_with_zwnj => o.replace_space_with_zwnj

/-- A well-formed score: positive probability product, at least one window. -/
def SeqScore.Pos (s : SeqScore) : Prop := 0 < s.prod ∧ 0 < s.count

/-- The model exhibiting the C3 counterexample: 4-gram model, smoothing 1/10,
trained on "aaaaa" and "zzzb" (so "aaaa" occurs twice, context "zzz" once). -/
def mC3 : NGramModel :=
  (initModel 4 (1/10)).train [['a', 'a', 'a', 'a', 'a'], ['z', 'z', 'z', 'b']]

/-- The processing state (buffer, offset) after the first `k` marker
positions of `process_text` have been handled. -/
def stateAfter (m : NGramModel) (ws : ℕ) (text : List Char) (k : ℕ) :
    List Char × ℕ :=
  ((hehPositions text).take k).foldl (m.processStep ws) (text, 0)

/-! ## Concrete models and texts used by the witnesses -/

/-- A tiny training corpus: five bigrams ه + ZWNJ (so ZWNJ insertion after ه
is strongly preferred by the trained bigram model). -/
def corpusW : List (List Char) :=
  [[hehChar, zwnjChar, hehChar, zwnjChar, hehChar, zwnjChar,
    hehChar, zwnjChar, hehChar, zwnjChar]]

/-- A bigram model with smoothing 1 trained on `corpusW`. -/
def mW : NGramModel := (initModel 2 1).train corpusW

/-- A two-marker input text. -/
def tW : List Char := ['a', hehChar, 'b', 'a', hehChar, 'b']

/-- A text whose single marker is its last character. -/
def tEnd : List Char := ['a', hehChar]

/-! ## Shared helper lemmas -/

/-- Positivity of every probability returned by a model with positive
smoothing and at least one trained n-gram. -/
theorem probQ_pos (m : NGramModel) (hs : 0 < m.smoothing)
    (ht : 0 < m.totalNgrams) (g : List Char) (ctx : Option (List Char)) :
    0 < m.probQ g ctx := by
  have htQ : (0 : ℚ) < (m.totalNgrams : ℚ) := by exact_mod_cast ht
  have hsv : (0 : ℚ) ≤ m.smoothing * (m.vocab.card : ℚ) :=
    mul_nonneg hs.le (by positivity)
  have hsvn : (0 : ℚ) ≤ m.smoothing * ((m.vocab.card ^ m.n : ℕ) : ℚ) :=
    mul_nonneg hs.le (by positivity)
  match ctx with
  | none =>
    apply div_pos (by positivity)
    exact lt_of_lt_of_le htQ (le_add_of_nonneg_right hsvn)
  | some c =>
    simp only [NGramModel.probQ]
    split
    · apply div_pos (by positivity)
      exact lt_of_lt_of_le htQ (le_add_of_nonneg_right hsv)
    · rename_i hc
      apply div_pos (by positivity)
      have : (0 : ℚ) < (m.contextCounts c : ℚ) := by
        exact_mod_cast Nat.pos_of_ne_zero hc
      exact lt_of_lt_of_le this (le_add_of_nonneg_right hsv)

/-- The count component of a sequence score is always positive. -/
theorem seqScoreQ_count_pos (m : NGramModel) (text : List Char)
    (start_pos window_size : ℕ) :
    0 < (m.seqScoreQ text start_pos window_size).count := by
  simp only [NGramModel.seqScoreQ]
  split
  · exact Nat.one_pos
  · split
    · exact Nat.one_pos
    · rename_i h
      exact Nat.pos_of_ne_zero h

/-- The product component of a sequence score is positive for any model with
positive smoothing and at least one trained n-gram. -/
theorem seqScoreQ_prod_pos (m : NGramModel) (hs : 0 < m.smoothing)
    (ht : 0 < m.totalNgrams) (text : List Char) (start_pos window_size : ℕ) :
    0 < (m.seqScoreQ text start_pos window_size).prod := by
  simp only [NGramModel.seqScoreQ]
  split
  · exact probQ_pos m hs ht _ _
  · split
    · exact hs
    · apply List.prod_pos
      intro a ha
      simp only [NGramModel.windowProbs, List.mem_map] at ha
      obtain ⟨g, -, rfl⟩ := ha
      exact probQ_pos m hs ht _ _

/-- `train` only looks at the `n` and `smoothing` fields of the receiver. -/
theorem train_eq_of_n_smoothing_eq (m m' : NGramModel)
    (texts : List (List Char)) (hn : m.n = m'.n) (hs : m.smoothing = m'.smoothing) :
    m.train texts = m'.train texts := by
  unfold NGramModel.train
  ext <;> simp [hn, hs]

/-! ## Claim theorems -/

/-- C2: for every trained model, `get_ngram_probability` with a context
returns `(count(ngram)+s)/(count(context)+s·V)`, falling back to
`(count(ngram)+s)/(total+s·V)` when the context count is zero; without a
context it returns the joint estimate `(count(ngram)+s)/(total+s·V^n)`. -/
theorem claimC2_probability_formula (m : NGramModel) (hm : m.isTrained = true)
    (g ctx : List Char) :
    (m.contextCounts ctx ≠ 0 →
      m.get_ngram_probability g (some ctx) =
        .ok (((m.ngramCounts g : ℚ) + m.smoothing) /
          ((m.contextCounts ctx : ℚ) + m.smoothing * (m.vocab.card : ℚ)))) ∧
    (m.contextCounts ctx = 0 →
      m.get_ngram_probability g (some ctx) =
        .ok (((m.ngramCounts g : ℚ) + m.smoothing) /
          ((m.totalNgrams : ℚ) + m.smoothing * (m.vocab.card : ℚ)))) ∧
    m.get_ngram_probability g none =
      .ok (((m.ngramCounts g : ℚ) + m.smoothing) /
        ((m.totalNgrams : ℚ) + m.smoothing * ((m.vocab.card ^ m.n : ℕ) : ℚ))) := by
  refine ⟨fun hc => ?_, fun hc => ?_, ?_⟩ <;>
    simp_all [NGramModel.get_ngram_probability, NGramModel.probQ]

/-- Witness for C2 at the concrete model `mW`. -/
theorem claimC2_probability_formula_witness :
    mW.isTrained = true ∧
    ((mW.contextCounts [hehChar] ≠ 0 →
      mW.get_ngram_probability [hehChar, zwnjChar] (some [hehChar]) =
        .ok (((mW.ngramCounts [hehChar, zwnjChar] : ℚ) + mW.smoothing) /
          ((mW.contextCounts [hehChar] : ℚ) + mW.smoothing * (mW.vocab.card : ℚ)))) ∧
    (mW.contextCounts [hehChar] = 0 →
      mW.get_ngram_probability [hehChar, zwnjChar] (some [hehChar]) =
        .ok (((mW.ngramCounts [hehChar, zwnjChar] : ℚ) + mW.smoothing) /
          ((mW.totalNgrams : ℚ) + mW.smoothing * (mW.vocab.card : ℚ)))) ∧
    mW.get_ngram_probability [hehChar, zwnjChar] none =
      .ok (((mW.ngramCounts [hehChar, zwnjChar] : ℚ) + mW.smoothing) /
        ((mW.totalNgrams : ℚ) + mW.smoothing * ((mW.vocab.card ^ mW.n : ℕ) : ℚ)))) :=
  ⟨rfl, claimC2_probability_formula mW rfl [hehChar, zwnjChar] [hehChar]⟩

/-- C9: `train` starts from fully reset counters, so its result depends only
on the receiver's `n` and `smoothing`; in particular training twice in a row
(or training two fresh models with equal parameters) yields identical
n-gram counts, context counts, vocabulary and total. -/
theorem claimC9_train_resets (m m' : NGramModel) (texts : List (List Char))
    (hn : m.n = m'.n) (hs : m.smoothing = m'.smoothing) :
    m.train texts = m'.train texts ∧
    (m.train texts).train texts = m.train texts := by
  refine ⟨train_eq_of_n_smoothing_eq m m' texts hn hs, ?_⟩
  exact train_eq_of_n_smoothing_eq (m.train texts) m texts rfl rfl

/-- Witness for C9: a fresh model and the already-trained `mW` share `n` and
`smoothing`, so training each on `corpusW` coincides. -/
theorem claimC9_train_resets_witness :
    (initModel 2 1).n = mW.n ∧ (initModel 2 1).smoothing = mW.smoothing ∧
    ((initModel 2 1).train corpusW = mW.train corpusW ∧
      ((initModel 2 1).train corpusW).train corpusW = (initModel 2 1).train corpusW) :=
  ⟨rfl, rfl, claimC9_train_resets (initModel 2 1) mW corpusW rfl rfl⟩

/-- C8: a `process_text`/`analyze_text` call has no partial-failure mode: an
untrained model fails with `notTrained` and produces no output at all (the
input is returned nowhere, hence untouched), while a trained model always
returns a complete result. -/
theorem claimC8_no_partial_failure (m : NGramModel) (text : List Char)
    (ws : Option ℕ) :
    (m.isTrained = false →
      m.process_text text ws = .error .notTrained ∧
      m.analyze_text text ws = .error .notTrained) ∧
    (m.isTrained = true →
      (∃ r, m.process_text text ws = .ok r) ∧
      (∃ l, m.analyze_text text ws = .ok l)) := by
  constructor
  · intro h
    constructor <;> simp [NGramModel.process_text, NGramModel.analyze_text, h]
  · intro h
    constructor
    · rcases hp : m.process_text text ws with e | r
      · simp [NGramModel.process_text, h] at hp
      · exact ⟨r, rfl⟩
    · rcases hp : m.analyze_text text ws with e | r
      · simp [NGramModel.analyze_text, h] at hp
      · exact ⟨r, rfl⟩

/-- Witness for C8: the untrained fresh model fails on `tW`; the trained
`mW` succeeds on `tW`. -/
theorem claimC8_no_partial_failure_witness :
    ((initModel 2 1).isTrained = false ∧
      (initModel 2 1).process_text tW none = .error .notTrained ∧
      (initModel 2 1).analyze_text tW none = .error .notTrained) ∧
    (mW.isTrained = true ∧
      (∃ r, mW.process_text tW none = .ok r) ∧
      (∃ l, mW.analyze_text tW none = .ok l)) :=
  ⟨⟨rfl, (claimC8_no_partial_failure (initModel 2 1) tW none).1 rfl⟩,
   ⟨rfl, (claimC8_no_partial_failure mW tW none).2 rfl⟩⟩

/-- C7: for a trained model and an in-range position, the option mapping of
`decide_after_heh` always offers `no_change` and `insert_zwnj` (the latter
because `position + 1 ≤ len(text)` holds, including for a marker that is the
last character), and offers `replace_space_with_zwnj` exactly when the
character immediately after the position exists and is a literal space. -/
theorem claimC7_offered_options (m : NGramModel) (text : List Char)
    (pos : ℕ) (ws : Option ℕ) (hm : m.isTrained = true)
    (hpos : pos < text.length) :
    ∃ o : DecisionOptions,
      m.decide_after_heh text pos ws = .ok o ∧
      o.no_change = m.seqScoreQ text pos (ws.getD (m.n * 2)) ∧
      o.insert_zwnj.isSome = true ∧
      (o.insert_zwnj.isSome = true ↔ pos + 1 ≤ text.length) ∧
      (o.replace_space_with_zwnj.isSome = true ↔
        pos + 1 < text.length ∧ text.getD (pos + 1) ' ' = ' ') := by
  refine ⟨m.decideOptions text pos (ws.getD (m.n * 2)), ?_, rfl, ?_, ?_, ?_⟩
  · simp [NGramModel.decide_after_heh, hm]
  · simp [NGramModel.decideOptions, Nat.succ_le_of_lt hpos]
  · simp [NGramModel.decideOptions, Nat.succ_le_of_lt hpos]
  · simp only [NGramModel.decideOptions]
    split
    · rename_i h
      simpa using h
    · rename_i h
      simpa using h

/-- Witness for C7 at the end-of-text marker of `tEnd`: `insert_zwnj` is
offered, `replace_space_with_zwnj` is not. -/
theorem claimC7_offered_options_witness :
    mW.isTrained = true ∧ 1 < tEnd.length ∧
    (∃ o : DecisionOptions,
      mW.decide_after_heh tEnd 1 none = .ok o ∧
      o.no_change = mW.seqScoreQ tEnd 1 (Option.getD none (mW.n * 2)) ∧
      o.insert_zwnj.isSome = true ∧
      (o.insert_zwnj.isSome = true ↔ 1 + 1 ≤ tEnd.length) ∧
      (o.replace_space_with_zwnj.isSome = true ↔
        1 + 1 < tEnd.length ∧ tEnd.getD (1 + 1) ' ' = ' ')) :=
  ⟨rfl, by decide, claimC7_offered_options mW tEnd 1 none rfl (by decide)⟩

/-- A `countP` is the sum, over the distinct matching elements, of their
multiplicities. -/
theorem countP_eq_sum_count_filter (l : List (List Char)) (p : List Char → Bool) :
    l.countP p = ∑ a ∈ l.toFinset.filter (fun a => p a = true), l.count a := by
  induction l with
  | nil => simp
  | cons a l ih =>
    rw [List.countP_cons, ih, List.toFinset_cons]
    symm
    have hcount : ∀ x, (a :: l).count x = l.count x + if x = a then 1 else 0 := by
      intro x
      by_cases h : x = a
      · subst h
        simp [List.count_cons]
      · simp [List.count_cons, beq_iff_eq, h, Ne.symm h]
    calc ∑ x ∈ (insert a l.toFinset).filter (fun x => p x = true), (a :: l).count x
        = ∑ x ∈ (insert a l.toFinset).filter (fun x => p x = true),
            (l.count x + if x = a then 1 else 0) :=
          Finset.sum_congr rfl fun x _ => hcount x
      _ = (∑ x ∈ (insert a l.toFinset).filter (fun x => p x = true), l.count x) +
            ∑ x ∈ (insert a l.toFinset).filter (fun x => p x = true),
              (if x = a then 1 else 0) := Finset.sum_add_distrib
      _ = (∑ x ∈ l.toFinset.filter (fun x => p x = true), l.count x) +
            (if p a = true then 1 else 0) := by
          congr 1
          · by_cases hmem : a ∈ l.toFinset
            · rw [Finset.insert_eq_self.mpr hmem]
            · rw [Finset.filter_insert]
              by_cases hq : p a = true
              · rw [if_pos hq, Finset.sum_insert]
                · have : l.count a = 0 :=
                    List.count_eq_zero.mpr (by simpa using hmem)
                  rw [this, zero_add]
                · simp [hmem]
              · rw [if_neg hq]
          · rw [Finset.sum_ite_eq' ((insert a l.toFinset).filter (fun x => p x = true)) a
              (fun _ => 1)]
            simp [Finset.mem_filter]

/-- Counting a value among the `dropLast`s counts the lists whose `dropLast`
is that value. -/
theorem count_map_dropLast (grams : List (List Char)) (c : List Char) :
    (grams.map List.dropLast).count c = grams.countP (fun g => g.dropLast == c) := by
  rw [List.count_eq_countP, List.countP_map]
  rfl

/-- C4: for any model built by `train` with n > 1, the context count of any
context `c` equals the sum of the n-gram counts over the distinct trained
n-grams whose first n−1 characters are `c` (every read operation of the
embedding is a pure function of the model, so the invariant persists). -/
theorem claimC4_context_invariant (m : NGramModel) (texts : List (List Char))
    (hn : 1 < m.n) (c : List Char) :
    (m.train texts).contextCounts c =
      ∑ g ∈ (trainedGrams m.n texts).toFinset.filter (fun g => g.dropLast = c),
        (m.train texts).ngramCounts g := by
  have h1 : (m.train texts).contextCounts c
      = ((trainedGrams m.n texts).map List.dropLast).count c := by
    simp [NGramModel.train, hn]
  have h2 : ∀ g, (m.train texts).ngramCounts g = (trainedGrams m.n texts).count g :=
    fun g => rfl
  rw [h1, count_map_dropLast, countP_eq_sum_count_filter]
  refine Finset.sum_congr ?_ fun g _ => (h2 g).symm
  refine Finset.filter_congr fun g _ => ?_
  simp

/-- Witness for C4 at the concrete bigram model trained on `corpusW`,
context ه. -/
theorem claimC4_context_invariant_witness :
    1 < (initModel 2 1).n ∧
    ((initModel 2 1).train corpusW).contextCounts [hehChar] =
      ∑ g ∈ (trainedGrams (initModel 2 1).n corpusW).toFinset.filter
          (fun g => g.dropLast = [hehChar]),
        ((initModel 2 1).train corpusW).ngramCounts g :=
  ⟨by decide, claimC4_context_invariant (initModel 2 1) corpusW (by decide) [hehChar]⟩

/-- `min (a + b) c - a = min b (c - a)` over ℕ. -/
theorem min_add_sub_eq (a b c : ℕ) : min (a + b) c - a = min b (c - a) := by
  rcases Nat.le_total (a + b) c with h | h
  · rw [Nat.min_eq_left h, Nat.min_eq_left (by omega)]
    omega
  · rw [Nat.min_eq_right h, Nat.min_eq_right (by omega)]

/-- The scored window is a function of the suffix `text[start_pos:]` alone. -/
theorem windowSeq_eq_take_drop (text : List Char) (start_pos window_size : ℕ) :
    windowSeq text start_pos window_size =
      (text.drop start_pos).take (min window_size (text.drop start_pos).length) := by
  unfold windowSeq
  rw [List.length_drop, min_add_sub_eq]

/-- Sequence scores agree on texts with equal suffixes from the start
position on. -/
theorem seqScoreQ_congr_drop (m : NGramModel) {t1 t2 : List Char} (p ws : ℕ)
    (h : t1.drop p = t2.drop p) :
    m.seqScoreQ t1 p ws = m.seqScoreQ t2 p ws := by
  unfold NGramModel.seqScoreQ
  rw [windowSeq_eq_take_drop, windowSeq_eq_take_drop, h]

/-- Dropping `p` characters from the ZWNJ-insertion variant leaves the
suffix with the ZWNJ spliced in after its head. -/
theorem drop_pyInsert (t : List Char) (p : ℕ) (hp : p < t.length) (c : Char) :
    (pyInsert t (p + 1) c).drop p =
      (t.drop p).take 1 ++ c :: (t.drop p).drop 1 := by
  unfold pyInsert
  have hlen : (t.take (p + 1)).length = p + 1 := by
    rw [List.length_take]
    omega
  rw [List.append_assoc,
    List.drop_append_of_le_length (by rw [hlen]; omega), List.drop_take]
  have h1 : p + 1 - p = 1 := by omega
  rw [h1, ← List.drop_drop]
  rfl

/-- Dropping `p` characters from the space-replacement variant leaves the
suffix with its second character replaced by the ZWNJ. -/
theorem drop_replace_variant (t : List Char) (p : ℕ) (hp : p + 1 < t.length)
    (c : Char) :
    (t.take (p + 1) ++ [c] ++ t.drop (p + 2)).drop p =
      (t.drop p).take 1 ++ c :: (t.drop p).drop 2 := by
  have hlen : (t.take (p + 1)).length = p + 1 := by
    rw [List.length_take]
    omega
  rw [List.append_assoc,
    List.drop_append_of_le_length (by rw [hlen]; omega), List.drop_take]
  have h1 : p + 1 - p = 1 := by omega
  rw [h1]
  have h2 : t.drop (p + 2) = (t.drop p).drop 2 := by
    rw [List.drop_drop]
  rw [h2]
  rfl

/-- Reading at `p + i` reads position `i` of the suffix from `p`. -/
theorem getD_add_drop (t : List Char) (p i : ℕ) (d : Char) :
    t.getD (p + i) d = (t.drop p).getD i d := by
  simp [List.getD_eq_getElem?_getD, List.getElem?_drop]

/-- C10: `decide_after_heh` is prefix-independent: two texts that agree from
the decision position onward receive identical option mappings, for every
trained model and every window size (explicit or defaulted). -/
theorem claimC10_decide_prefix_independent (m : NGramModel) (t1 t2 : List Char)
    (p : ℕ) (ws : Option ℕ) (hm : m.isTrained = true)
    (h : t1.drop p = t2.drop p) :
    m.decide_after_heh t1 p ws = m.decide_after_heh t2 p ws := by
  have hl : t1.length - p = t2.length - p := by
    rw [← List.length_drop, h, List.length_drop]
  simp only [NGramModel.decide_after_heh, hm, Bool.true_eq_false, if_false,
    NGramModel.decideOptions, Except.ok.injEq, DecisionOptions.mk.injEq]
  refine ⟨seqScoreQ_congr_drop m _ _ h, ?_, ?_⟩
  · have hch : ∀ i, t1.getD (p + i) ' ' = t2.getD (p + i) ' ' := by
      intro i
      rw [getD_add_drop, getD_add_drop, h]
    split_ifs with h1 h2 h2
    · congr 1
      apply seqScoreQ_congr_drop
      rw [drop_pyInsert t1 p (by omega) zwnjChar,
        drop_pyInsert t2 p (by omega) zwnjChar, h]
    · omega
    · omega
    · rfl
  · have hch : t1.getD (p + 1) ' ' = t2.getD (p + 1) ' ' := by
      rw [getD_add_drop, getD_add_drop, h]
    split_ifs with h1 h2 h2
    · congr 1
      apply seqScoreQ_congr_drop
      rw [drop_replace_variant t1 p h1.1 zwnjChar,
        drop_replace_variant t2 p h2.1 zwnjChar, h]
    · exact absurd ⟨by omega, by rw [← hch]; exact h1.2⟩ h2
    · exact absurd ⟨by omega, by rw [hch]; exact h2.2⟩ h1
    · rfl

/-- Witness for C10: two texts differing only in their first character get
identical decisions at the shared marker position. -/
theorem claimC10_decide_prefix_independent_witness :
    mW.isTrained = true ∧
    (['x', 'a', hehChar, 'b'] : List Char).drop 2 =
      (['y', 'a', hehChar, 'b'] : List Char).drop 2 ∧
    mW.decide_after_heh ['x', 'a', hehChar, 'b'] 2 none =
      mW.decide_after_heh ['y', 'a', hehChar, 'b'] 2 none :=
  ⟨rfl, by decide,
    claimC10_decide_prefix_independent mW ['x', 'a', hehChar, 'b']
      ['y', 'a', hehChar, 'b'] 2 none rfl (by decide)⟩

/-- The exact cross-power comparison coincides with comparing the real
scores, for well-formed scores: monotonicity of `exp`, `log` and division by
a positive count. -/
theorem realScore_le_iff (x y : SeqScore) (hx : x.Pos) (hy : y.Pos) :
    x.realScore ≤ y.realScore ↔ SeqScore.le x y := by
  have hx1 : (0 : ℝ) < (x.prod : ℝ) := by exact_mod_cast hx.1
  have hy1 : (0 : ℝ) < (y.prod : ℝ) := by exact_mod_cast hy.1
  have hx2 : (0 : ℝ) < (x.count : ℝ) := by exact_mod_cast hx.2
  have hy2 : (0 : ℝ) < (y.count : ℝ) := by exact_mod_cast hy.2
  unfold SeqScore.realScore SeqScore.le
  rw [Real.exp_le_exp, div_le_div_iff₀ hx2 hy2, mul_comm, mul_comm (Real.log _) (x.count : ℝ),
    ← Real.log_pow, ← Real.log_pow,
    Real.log_le_log_iff (pow_pos hx1 _) (pow_pos hy1 _)]
  constructor <;> intro hh <;> exact_mod_cast hh

/-- `SeqScore.le` implies the real scores compare the same way. -/
theorem realScore_le_of_le (x y : SeqScore) (hx : x.Pos) (hy : y.Pos)
    (h : SeqScore.le x y) : x.realScore ≤ y.realScore :=
  (realScore_le_iff x y hx hy).mpr h

/-- A failed `SeqScore.le` means the real score is strictly larger. -/
theorem lt_realScore_of_not_le (x y : SeqScore) (hx : x.Pos) (hy : y.Pos)
    (h : ¬ SeqScore.le x y) : y.realScore < x.realScore :=
  not_le.mp fun hc => h ((realScore_le_iff x y hx hy).mp hc)

/-- Every score produced by `decideOptions` is well-formed, given positive
smoothing and a nonempty training total. -/
theorem decideOptions_scoreOf_pos (m : NGramModel) (hs : 0 < m.smoothing)
    (ht : 0 < m.totalNgrams) (text : List Char) (pos ws : ℕ)
    (k : ZOption) (s : SeqScore)
    (h : (m.decideOptions text pos ws).scoreOf k = some s) : s.Pos := by
  have base : ∀ t a b, (m.seqScoreQ t a b).Pos := fun t a b =>
    ⟨seqScoreQ_prod_pos m hs ht t a b, seqScoreQ_count_pos m t a b⟩
  cases k with
  | no_change =>
    simp only [DecisionOptions.scoreOf, NGramModel.decideOptions,
      Option.some.injEq] at h
    exact h ▸ base _ _ _
  | insert_zwnj =>
    simp only [DecisionOptions.scoreOf, NGramModel.decideOptions] at h
    split at h
    · exact (Option.some.inj h) ▸ base _ _ _
    · exact absurd h (by simp)
  | replace_space_with_zwnj =>
    simp only [DecisionOptions.scoreOf, NGramModel.decideOptions] at h
    split at h
    · exact (Option.some.inj h) ▸ base _ _ _
    · exact absurd h (by simp)

/-- `bestOption` picks an applicable key of maximal real score, and on exact
real-score ties the earliest key in the order
no_change > insert_zwnj > replace_space_with_zwnj. -/
theorem bestOption_spec (o : DecisionOptions)
    (hpos : ∀ k s, o.scoreOf k = some s → s.Pos) :
    ∃ sb, o.scoreOf o.bestOption = some sb ∧
      ∀ k s, o.scoreOf k = some s →
        s.realScore ≤ sb.realScore ∧
        (s.realScore = sb.realScore → prefRank o.bestOption ≤ prefRank k) := by
  obtain ⟨nc, i, r⟩ := o
  have hnc : nc.Pos := hpos .no_change nc rfl
  rcases i with _ | si <;> rcases r with _ | sr
  · refine ⟨nc, rfl, ?_⟩
    rintro (_ | _ | _) s hks <;> simp [DecisionOptions.scoreOf] at hks
    exact ⟨by rw [hks], fun _ => le_refl _⟩
  · have hsr : sr.Pos := hpos .replace_space_with_zwnj sr rfl
    by_cases hb : SeqScore.le sr nc
    · refine ⟨nc, by simp [DecisionOptions.bestOption, DecisionOptions.scoreOf, hb], ?_⟩
      rintro (_ | _ | _) s hks <;> simp [DecisionOptions.scoreOf] at hks
      · exact ⟨by rw [hks], fun _ => by
          simp [DecisionOptions.bestOption, hb, prefRank]⟩
      · subst hks
        exact ⟨realScore_le_of_le _ _ hsr hnc hb, fun _ => by
          simp [DecisionOptions.bestOption, hb, prefRank]⟩
    · have hlt := lt_realScore_of_not_le sr nc hsr hnc hb
      refine ⟨sr, by simp [DecisionOptions.bestOption, DecisionOptions.scoreOf, hb], ?_⟩
      rintro (_ | _ | _) s hks <;> simp [DecisionOptions.scoreOf] at hks
      · subst hks
        exact ⟨hlt.le, fun he => absurd he (ne_of_lt hlt)⟩
      · subst hks
        exact ⟨le_refl _, fun _ => by simp [DecisionOptions.bestOption, hb, prefRank]⟩
  · have hsi : si.Pos := hpos .insert_zwnj si rfl
    by_cases hb : SeqScore.le si nc
    · refine ⟨nc, by simp [DecisionOptions.bestOption, DecisionOptions.scoreOf, hb], ?_⟩
      rintro (_ | _ | _) s hks <;> simp [DecisionOptions.scoreOf] at hks
      · exact ⟨by rw [hks], fun _ => by
          simp [DecisionOptions.bestOption, hb, prefRank]⟩
      · subst hks
        exact ⟨realScore_le_of_le _ _ hsi hnc hb, fun _ => by
          simp [DecisionOptions.bestOption, hb, prefRank]⟩
    · have hlt := lt_realScore_of_not_le si nc hsi hnc hb
      refine ⟨si, by simp [DecisionOptions.bestOption, DecisionOptions.scoreOf, hb], ?_⟩
      rintro (_ | _ | _) s hks <;> simp [DecisionOptions.scoreOf] at hks
      · subst hks
        exact ⟨hlt.le, fun he => absurd he (ne_of_lt hlt)⟩
      · subst hks
        exact ⟨le_refl _, fun _ => by simp [DecisionOptions.bestOption, hb, prefRank]⟩
  · have hsi : si.Pos := hpos .insert_zwnj si rfl
    have hsr : sr.Pos := hpos .replace_space_with_zwnj sr rfl
    by_cases hr1 : SeqScore.le sr nc <;> by_cases hr2 : SeqScore.le sr si <;>
      by_cases hi1 : SeqScore.le si nc
    -- hr1 hr2 hi1 : best = no_change
    · have hbest : DecisionOptions.bestOption ⟨nc, some si, some sr⟩ = .no_change := by
        simp [DecisionOptions.bestOption, hr1, hi1]
      rw [hbest]
      refine ⟨nc, rfl, ?_⟩
      rintro (_ | _ | _) s hks <;>
          simp only [DecisionOptions.scoreOf, Option.some.injEq] at hks <;> subst hks
      · exact ⟨le_refl _, fun _ => le_refl _⟩
      · exact ⟨realScore_le_of_le _ _ hsi hnc hi1, fun _ => by simp [prefRank]⟩
      · exact ⟨realScore_le_of_le _ _ hsr hnc hr1, fun _ => by simp [prefRank]⟩
    -- hr1 hr2 ¬hi1 : best = insert
    · have hbest : DecisionOptions.bestOption ⟨nc, some si, some sr⟩ = .insert_zwnj := by
        simp [DecisionOptions.bestOption, hr1, hi1]
      have hlt := lt_realScore_of_not_le si nc hsi hnc hi1
      rw [hbest]
      refine ⟨si, rfl, ?_⟩
      rintro (_ | _ | _) s hks <;>
          simp only [DecisionOptions.scoreOf, Option.some.injEq] at hks <;> subst hks
      · exact ⟨hlt.le, fun he => absurd he (ne_of_lt hlt)⟩
      · exact ⟨le_refl _, fun _ => le_refl _⟩
      · exact ⟨realScore_le_of_le _ _ hsr hsi hr2, fun _ => by simp [prefRank]⟩
    -- hr1 ¬hr2 hi1 : replace flag still false via hr1; best = no_change
    · have hbest : DecisionOptions.bestOption ⟨nc, some si, some sr⟩ = .no_change := by
        simp [DecisionOptions.bestOption, hr1, hi1]
      rw [hbest]
      refine ⟨nc, rfl, ?_⟩
      rintro (_ | _ | _) s hks <;>
          simp only [DecisionOptions.scoreOf, Option.some.injEq] at hks <;> subst hks
      · exact ⟨le_refl _, fun _ => le_refl _⟩
      · exact ⟨realScore_le_of_le _ _ hsi hnc hi1, fun _ => by simp [prefRank]⟩
      · exact ⟨realScore_le_of_le _ _ hsr hnc hr1, fun _ => by simp [prefRank]⟩
    -- hr1 ¬hr2 ¬hi1 : best = insert; sr ≤ nc < si
    · have hbest : DecisionOptions.bestOption ⟨nc, some si, some sr⟩ = .insert_zwnj := by
        simp [DecisionOptions.bestOption, hr1, hi1]
      have hlt := lt_realScore_of_not_le si nc hsi hnc hi1
      rw [hbest]
      refine ⟨si, rfl, ?_⟩
      rintro (_ | _ | _) s hks <;>
          simp only [DecisionOptions.scoreOf, Option.some.injEq] at hks <;> subst hks
      · exact ⟨hlt.le, fun he => absurd he (ne_of_lt hlt)⟩
      · exact ⟨le_refl _, fun _ => le_refl _⟩
      · exact ⟨(realScore_le_of_le _ _ hsr hnc hr1).trans hlt.le,
          fun _ => by simp [prefRank]⟩
    -- ¬hr1 hr2 hi1 : replace flag = ¬le sr nc ∧ ¬le sr si fails on hr2; best = no_change
    · have hbest : DecisionOptions.bestOption ⟨nc, some si, some sr⟩ = .no_change := by
        simp [DecisionOptions.bestOption, hr1, hr2, hi1]
      rw [hbest]
      refine ⟨nc, rfl, ?_⟩
      rintro (_ | _ | _) s hks <;>
          simp only [DecisionOptions.scoreOf, Option.some.injEq] at hks <;> subst hks
      · exact ⟨le_refl _, fun _ => le_refl _⟩
      · exact ⟨realScore_le_of_le _ _ hsi hnc hi1, fun _ => by simp [prefRank]⟩
      · exact ⟨(realScore_le_of_le _ _ hsr hsi hr2).trans
          (realScore_le_of_le _ _ hsi hnc hi1), fun _ => by simp [prefRank]⟩
    -- ¬hr1 hr2 ¬hi1 : best = insert; sr ≤ si
    · have hbest : DecisionOptions.bestOption ⟨nc, some si, some sr⟩ = .insert_zwnj := by
        simp [DecisionOptions.bestOption, hr1, hr2, hi1]
      have hlt := lt_realScore_of_not_le si nc hsi hnc hi1
      rw [hbest]
      refine ⟨si, rfl, ?_⟩
      rintro (_ | _ | _) s hks <;>
          simp only [DecisionOptions.scoreOf, Option.some.injEq] at hks <;> subst hks
      · exact ⟨hlt.le, fun he => absurd he (ne_of_lt hlt)⟩
      · exact ⟨le_refl _, fun _ => le_refl _⟩
      · exact ⟨realScore_le_of_le _ _ hsr hsi hr2, fun _ => by simp [prefRank]⟩
    -- ¬hr1 ¬hr2 hi1 : best = replace; nc and si strictly below sr
    · have hbest : DecisionOptions.bestOption ⟨nc, some si, some sr⟩ =
          .replace_space_with_zwnj := by
        simp [DecisionOptions.bestOption, hr1, hr2]
      have h1 := lt_realScore_of_not_le sr nc hsr hnc hr1
      have h2 := lt_realScore_of_not_le sr si hsr hsi hr2
      rw [hbest]
      refine ⟨sr, rfl, ?_⟩
      rintro (_ | _ | _) s hks <;>
          simp only [DecisionOptions.scoreOf, Option.some.injEq] at hks <;> subst hks
      · exact ⟨h1.le, fun he => absurd he (ne_of_lt h1)⟩
      · exact ⟨h2.le, fun he => absurd he (ne_of_lt h2)⟩
      · exact ⟨le_refl _, fun _ => le_refl _⟩
    -- ¬hr1 ¬hr2 ¬hi1 : best = replace
    · have hbest : DecisionOptions.bestOption ⟨nc, some si, some sr⟩ =
          .replace_space_with_zwnj := by
        simp [DecisionOptions.bestOption, hr1, hr2]
      have h1 := lt_realScore_of_not_le sr nc hsr hnc hr1
      have h2 := lt_realScore_of_not_le sr si hsr hsi hr2
      rw [hbest]
      refine ⟨sr, rfl, ?_⟩
      rintro (_ | _ | _) s hks <;>
          simp only [DecisionOptions.scoreOf, Option.some.injEq] at hks <;> subst hks
      · exact ⟨h1.le, fun he => absurd he (ne_of_lt h1)⟩
      · exact ⟨h2.le, fun he => absurd he (ne_of_lt h2)⟩
      · exact ⟨le_refl _, fun _ => le_refl _⟩

/-- C6: in both `process_text` and `analyze_text` the chosen option comes
from `bestOption`, a deterministic function of the option mapping, and
`bestOption` resolves exact score ties by the fixed preference order
no_change > insert_zwnj > replace_space_with_zwnj while always attaining
the maximal score. -/
theorem claimC6_tie_break (m : NGramModel) (hs : 0 < m.smoothing)
    (ht : 0 < m.totalNgrams) :
    (∀ text pos window_size, ∃ sb,
      (m.decideOptions text pos window_size).scoreOf
          (m.decideOptions text pos window_size).bestOption = some sb ∧
        ∀ k s, (m.decideOptions text pos window_size).scoreOf k = some s →
          s.realScore ≤ sb.realScore ∧
          (s.realScore = sb.realScore →
            prefRank (m.decideOptions text pos window_size).bestOption ≤ prefRank k)) ∧
    (∀ window_size st p, m.processStep window_size st p =
      applyBest st ((m.decideOptions st.1 (p + st.2) window_size).bestOption)
        (p + st.2)) ∧
    (∀ text ws l, m.analyze_text text ws = .ok l →
      ∀ rec ∈ l, rec.best_option = rec.options.bestOption) := by
  refine ⟨fun text pos window_size => bestOption_spec _
      (fun k s h => decideOptions_scoreOf_pos m hs ht text pos window_size k s h),
    fun window_size st p => rfl, fun text ws l hl rec hrec => ?_⟩
  simp only [NGramModel.analyze_text] at hl
  split at hl
  · exact absurd hl (by simp)
  · simp only [Except.ok.injEq] at hl
    subst hl
    simp only [List.mem_map] at hrec
    obtain ⟨pos, -, rfl⟩ := hrec
    rfl

/-- Witness for C6 at the concrete model `mW`. -/
theorem claimC6_tie_break_witness :
    0 < mW.smoothing ∧ 0 < mW.totalNgrams ∧
    ((∀ text pos window_size, ∃ sb,
      (mW.decideOptions text pos window_size).scoreOf
          (mW.decideOptions text pos window_size).bestOption = some sb ∧
        ∀ k s, (mW.decideOptions text pos window_size).scoreOf k = some s →
          s.realScore ≤ sb.realScore ∧
          (s.realScore = sb.realScore →
            prefRank (mW.decideOptions text pos window_size).bestOption ≤ prefRank k)) ∧
    (∀ window_size st p, mW.processStep window_size st p =
      applyBest st ((mW.decideOptions st.1 (p + st.2) window_size).bestOption)
        (p + st.2)) ∧
    (∀ text ws l, mW.analyze_text text ws = .ok l →
      ∀ rec ∈ l, rec.best_option = rec.options.bestOption)) :=
  ⟨by decide, by decide, claimC6_tie_break mW (by decide) (by decide)⟩

/-- The log of a product of positive rationals is the sum of the logs. -/
theorem log_list_prod (l : List ℚ) (h : ∀ p ∈ l, 0 < p) :
    Real.log ((l.prod : ℚ) : ℝ) = (l.map (fun p => Real.log ((p : ℚ) : ℝ))).sum := by
  induction l with
  | nil => simp
  | cons a l ih =>
    have ha : (0 : ℝ) < (a : ℝ) := by
      exact_mod_cast h a (List.mem_cons_self a l)
    have hl : (0 : ℝ) < ((l.prod : ℚ) : ℝ) := by
      have : 0 < l.prod := List.prod_pos fun x hx => h x (List.mem_cons_of_mem a hx)
      exact_mod_cast this
    simp only [List.prod_cons, List.map_cons, List.sum_cons, Rat.cast_mul]
    rw [Real.log_mul (ne_of_gt ha) (ne_of_gt hl),
      ih fun x hx => h x (List.mem_cons_of_mem a hx)]

/-- Every conditional window probability is positive for a model with
positive smoothing and at least one trained n-gram. -/
theorem windowProbs_pos (m : NGramModel) (hs : 0 < m.smoothing)
    (ht : 0 < m.totalNgrams) (s : List Char) : ∀ p ∈ m.windowProbs s, 0 < p := by
  intro p hp
  simp only [NGramModel.windowProbs, List.mem_map] at hp
  obtain ⟨g, -, rfl⟩ := hp
  exact probQ_pos m hs ht _ _

/-- The number of scored windows is `len(sequence) + 1 - n`. -/
theorem windowProbs_length (m : NGramModel) (sequence : List Char) :
    (m.windowProbs sequence).length = sequence.length + 1 - m.n := by
  simp [NGramModel.windowProbs, ngramsOf]

/-- C5: `get_sequence_score` scores the substring
`text[start : min(start+window_size, len)]`; below length n it returns that
substring's joint probability, otherwise it returns exp of the arithmetic
mean of the natural logs of the windows' conditional probabilities, which
(for positive probabilities) is their geometric mean
`(Π probs) ^ (1/count)`. -/
theorem claimC5_sequence_score (m : NGramModel) (hm : m.isTrained = true)
    (text : List Char) (start_pos window_size : ℕ) :
    ((windowSeq text start_pos window_size).length < m.n →
      m.get_sequence_score text start_pos window_size =
        .ok ((m.probQ (windowSeq text start_pos window_size) none : ℚ) : ℝ)) ∧
    (m.n ≤ (windowSeq text start_pos window_size).length →
      (∀ p ∈ m.windowProbs (windowSeq text start_pos window_size), 0 < p) →
      m.get_sequence_score text start_pos window_size =
        .ok (Real.exp
          (((m.windowProbs (windowSeq text start_pos window_size)).map
              (fun p => Real.log ((p : ℚ) : ℝ))).sum /
            ((m.windowProbs (windowSeq text start_pos window_size)).length : ℝ))) ∧
      Real.exp
          (((m.windowProbs (windowSeq text start_pos window_size)).map
              (fun p => Real.log ((p : ℚ) : ℝ))).sum /
            ((m.windowProbs (windowSeq text start_pos window_size)).length : ℝ)) =
        (((m.windowProbs (windowSeq text start_pos window_size)).prod : ℚ) : ℝ) ^
          ((1 : ℝ) / ((m.windowProbs (windowSeq text start_pos window_size)).length : ℝ))) := by
  constructor
  · intro hshort
    simp [NGramModel.get_sequence_score, hm, hshort]
  · intro hlong hpos
    have hne : (m.windowProbs (windowSeq text start_pos window_size)).length ≠ 0 := by
      rw [windowProbs_length]
      omega
    constructor
    · simp only [NGramModel.get_sequence_score, hm, Bool.true_eq_false, if_false]
      rw [if_neg (Nat.not_lt.mpr hlong), if_neg hne]
    · rw [← log_list_prod _ hpos, div_eq_mul_one_div, Real.exp_mul, Real.exp_log]
      have : 0 < (m.windowProbs (windowSeq text start_pos window_size)).prod :=
        List.prod_pos hpos
      exact_mod_cast this

/-- Witness for C5 on the long-sequence branch at the concrete model `mW`. -/
theorem claimC5_sequence_score_witness :
    mW.isTrained = true ∧
    mW.n ≤ (windowSeq tW 1 4).length ∧
    (∀ p ∈ mW.windowProbs (windowSeq tW 1 4), 0 < p) ∧
    (mW.get_sequence_score tW 1 4 =
        .ok (Real.exp
          (((mW.windowProbs (windowSeq tW 1 4)).map
              (fun p => Real.log ((p : ℚ) : ℝ))).sum /
            ((mW.windowProbs (windowSeq tW 1 4)).length : ℝ))) ∧
      Real.exp
          (((mW.windowProbs (windowSeq tW 1 4)).map
              (fun p => Real.log ((p : ℚ) : ℝ))).sum /
            ((mW.windowProbs (windowSeq tW 1 4)).length : ℝ)) =
        (((mW.windowProbs (windowSeq tW 1 4)).prod : ℚ) : ℝ) ^
          ((1 : ℝ) / ((mW.windowProbs (windowSeq tW 1 4)).length : ℝ))) :=
  ⟨rfl, by decide, windowProbs_pos mW (by decide) (by decide) _,
    (claimC5_sequence_score mW rfl tW 1 4).2 (by decide)
      (windowProbs_pos mW (by decide) (by decide) _)⟩

/-- C3 counterexample: on the trained model `mC3`, querying the n-gram
"aaaa" against the mismatched context "zzz" returns (2 + s)/(1 + 3s) = 21/13,
strictly greater than 1 — refuting "probability returns a value in (0, 1]
for every trained model and every n-gram (with or without a context)" — and
the conditional probabilities over the vocabulary for the unseen context
"bbb" sum to s·V/(total + s·V) = 1/11, nowhere near 1 — refuting "for every
context, the sum ... is approximately 1". -/
theorem claimC3_probability_range_counterexample :
    mC3.isTrained = true ∧
    mC3.get_ngram_probability ['a', 'a', 'a', 'a'] (some ['z', 'z', 'z']) =
      .ok (mC3.probQ ['a', 'a', 'a', 'a'] (some ['z', 'z', 'z'])) ∧
    1 < mC3.probQ ['a', 'a', 'a', 'a'] (some ['z', 'z', 'z']) ∧
    mC3.contextCounts ['b', 'b', 'b'] = 0 ∧
    (∑ c ∈ mC3.vocab, mC3.probQ (['b', 'b', 'b'] ++ [c]) (some ['b', 'b', 'b']))
      = 1/11 ∧
    (1/11 : ℚ) < 1/2 := by
  refine ⟨rfl, rfl, ?_, by decide, ?_, by norm_num⟩
  · have h1 : mC3.contextCounts ['z', 'z', 'z'] = 1 := by decide
    have h2 : mC3.ngramCounts ['a', 'a', 'a', 'a'] = 2 := by decide
    have h3 : mC3.vocab.card = 3 := by decide
    have h4 : mC3.smoothing = 1/10 := rfl
    simp only [NGramModel.probQ, h1, h2, h3, h4]
    norm_num
  · have hv : mC3.vocab = {'a', 'z', 'b'} := by decide
    have hcz : mC3.contextCounts ['b', 'b', 'b'] = 0 := by decide
    have hga : mC3.ngramCounts (['b', 'b', 'b'] ++ ['a']) = 0 := by decide
    have hgz : mC3.ngramCounts (['b', 'b', 'b'] ++ ['z']) = 0 := by decide
    have hgb : mC3.ngramCounts (['b', 'b', 'b'] ++ ['b']) = 0 := by decide
    have h3 : mC3.vocab.card = 3 := by decide
    have h5 : mC3.totalNgrams = 3 := by decide
    have h4 : mC3.smoothing = 1/10 := rfl
    rw [hv, Finset.sum_insert (by decide), Finset.sum_insert (by decide),
      Finset.sum_singleton]
    simp only [NGramModel.probQ, hcz, hga, hgz, hgb, h3, h5, h4]
    norm_num

/-- Every n-gram of a text has length exactly n. -/
theorem length_of_mem_ngramsOf (n : ℕ) (t : List Char) (g : List Char)
    (hg : g ∈ ngramsOf n t) : g.length = n := by
  simp only [ngramsOf, List.mem_map, List.mem_range] at hg
  obtain ⟨i, hi, rfl⟩ := hg
  rw [List.length_take, List.length_drop]
  omega

/-- Every trained n-gram has length exactly n. -/
theorem length_of_mem_trainedGrams (n : ℕ) (texts : List (List Char))
    (g : List Char) (hg : g ∈ trainedGrams n texts) : g.length = n := by
  simp only [trainedGrams, List.mem_flatMap] at hg
  obtain ⟨t, -, hg⟩ := hg
  exact length_of_mem_ngramsOf n _ g hg

/-- Summing, over a set of final characters covering the matching lists, the
multiplicities of `ctx ++ [c]` counts the lists whose `dropLast` is `ctx`. -/
theorem sum_count_append_eq_countP (S : Finset Char) (ctx : List Char) :
    ∀ l : List (List Char),
      (∀ g ∈ l, g.dropLast = ctx → ∃ c ∈ S, g = ctx ++ [c]) →
      ∑ c ∈ S, l.count (ctx ++ [c]) = l.countP (fun g => g.dropLast == ctx)
  | [], _ => by simp
  | x :: l, h => by
    have IH := sum_count_append_eq_countP S ctx l
      fun g hg => h g (List.mem_cons_of_mem x hg)
    rw [List.countP_cons]
    have hcount : ∀ c, (x :: l).count (ctx ++ [c]) =
        l.count (ctx ++ [c]) + if x = ctx ++ [c] then 1 else 0 := by
      intro c
      by_cases hx : x = ctx ++ [c]
      · subst hx
        simp [List.count_cons]
      · simp [List.count_cons, hx, beq_iff_eq, Ne.symm hx]
    rw [Finset.sum_congr rfl fun c _ => hcount c, Finset.sum_add_distrib, IH]
    congr 1
    by_cases hx : x.dropLast = ctx
    · obtain ⟨c0, hc0S, rfl⟩ := h x (List.mem_cons_self x l) hx
      have hiff : ∀ c, (ctx ++ [c0] = ctx ++ [c]) ↔ (c = c0) := by
        intro c
        constructor
        · intro he
          have := List.append_cancel_left he
          simpa using this.symm
        · rintro rfl
          rfl
      rw [Finset.sum_congr rfl fun c _ => if_congr (hiff c) rfl rfl,
        Finset.sum_ite_eq' S c0 fun _ => 1]
      simp [hc0S, hx]
    · have hne : ∀ c, ¬ (x = ctx ++ [c]) := by
        intro c he
        apply hx
        rw [he]
        simp
      rw [Finset.sum_congr rfl fun c _ => if_neg (hne c)]
      simp [hx]

/-- C3 amended: for any model trained (n ≥ 1, positive smoothing) on a corpus
yielding at least one n-gram, every probability is strictly positive; the
joint probability and the conditional probability of an n-gram given ITS OWN
leading characters are at most 1 (a mismatched context can exceed 1, see the
counterexample); for every context with positive count the conditional
probabilities over the vocabulary sum to exactly 1; and (when n > 1) for a
context with zero count they sum to s·V/(total + s·V) instead, near 0 (also
exhibited by the counterexample). -/
theorem claimC3_probability_range_amended (m0 : NGramModel)
    (texts : List (List Char)) (hn : 0 < m0.n) (hs : 0 < m0.smoothing)
    (ht : 0 < (m0.train texts).totalNgrams) :
    (∀ g ctx, 0 < (m0.train texts).probQ g ctx) ∧
    (∀ g, (m0.train texts).probQ g none ≤ 1) ∧
    (∀ g, (m0.train texts).probQ g (some g.dropLast) ≤ 1) ∧
    (∀ ctx, 0 < (m0.train texts).contextCounts ctx →
      ∑ c ∈ (m0.train texts).vocab,
        (m0.train texts).probQ (ctx ++ [c]) (some ctx) = 1) ∧
    (1 < m0.n → ∀ ctx, (m0.train texts).contextCounts ctx = 0 →
      ∑ c ∈ (m0.train texts).vocab,
        (m0.train texts).probQ (ctx ++ [c]) (some ctx) =
          m0.smoothing * ((m0.train texts).vocab.card : ℚ) /
            (((m0.train texts).totalNgrams : ℚ) +
              m0.smoothing * ((m0.train texts).vocab.card : ℚ))) := by
  have hsm : (m0.train texts).smoothing = m0.smoothing := rfl
  have hnn : (m0.train texts).n = m0.n := rfl
  have hV : 0 < (m0.train texts).vocab.card := by
    have hgr : trainedGrams m0.n texts ≠ [] := by
      intro h
      have h0 : (m0.train texts).totalNgrams = 0 := by
        show (trainedGrams m0.n texts).length = 0
        rw [h]
        rfl
      omega
    obtain ⟨g, hg⟩ := List.exists_mem_of_ne_nil _ hgr
    have hglen : g.length = m0.n := length_of_mem_trainedGrams _ _ _ hg
    have hgne : g ≠ [] := by
      intro h
      rw [h] at hglen
      simp at hglen
      omega
    rw [Finset.card_pos]
    refine ⟨g.getLast hgne, ?_⟩
    show g.getLast hgne ∈ (trainedGrams m0.n texts).flatten.toFinset
    rw [List.mem_toFinset, List.mem_flatten]
    exact ⟨g, hg, List.getLast_mem hgne⟩
  have hVQ : (1 : ℚ) ≤ ((m0.train texts).vocab.card : ℚ) := by exact_mod_cast hV
  have htQ : (1 : ℚ) ≤ ((m0.train texts).totalNgrams : ℚ) := by exact_mod_cast ht
  have hV0 : (0 : ℚ) ≤ m0.smoothing * ((m0.train texts).vocab.card : ℚ) :=
    mul_nonneg hs.le (by positivity)
  have hV1 : m0.smoothing ≤ m0.smoothing * ((m0.train texts).vocab.card : ℚ) :=
    le_mul_of_one_le_right hs.le hVQ
  have hcount_le_total : ∀ g,
      ((m0.train texts).ngramCounts g : ℚ) ≤ ((m0.train texts).totalNgrams : ℚ) := by
    intro g
    exact_mod_cast List.count_le_length g (trainedGrams m0.n texts)
  refine ⟨fun g ctx => probQ_pos (m0.train texts) hs ht g ctx, ?_, ?_, ?_, ?_⟩
  · intro g
    simp only [NGramModel.probQ, hsm, hnn]
    have hpow : (1 : ℚ) ≤ (((m0.train texts).vocab.card ^ m0.n : ℕ) : ℚ) := by
      exact_mod_cast Nat.one_le_pow _ _ hV
    have h0 : (0 : ℚ) ≤ m0.smoothing * (((m0.train texts).vocab.card ^ m0.n : ℕ) : ℚ) :=
      mul_nonneg hs.le (by positivity)
    have h1 : m0.smoothing ≤ m0.smoothing * (((m0.train texts).vocab.card ^ m0.n : ℕ) : ℚ) :=
      le_mul_of_one_le_right hs.le hpow
    rw [div_le_one (by linarith)]
    linarith [hcount_le_total g]
  · intro g
    simp only [NGramModel.probQ, hsm, hnn]
    split
    · rw [div_le_one (by linarith)]
      linarith [hcount_le_total g]
    · rename_i hcz
      have hn2 : 1 < m0.n := by
        by_contra hh
        apply hcz
        show (if 1 < m0.n then
          ((trainedGrams m0.n texts).map List.dropLast).count g.dropLast else 0) = 0
        rw [if_neg hh]
      have hctxP : (m0.train texts).contextCounts g.dropLast =
          (trainedGrams m0.n texts).countP (fun x => x.dropLast == g.dropLast) := by
        show (if 1 < m0.n then
          ((trainedGrams m0.n texts).map List.dropLast).count g.dropLast else 0) = _
        rw [if_pos hn2, count_map_dropLast]
      have hcount : (m0.train texts).ngramCounts g ≤
          (m0.train texts).contextCounts g.dropLast := by
        rw [hctxP]
        show (trainedGrams m0.n texts).count g ≤ _
        rw [List.count_eq_countP]
        refine List.countP_mono_left fun x _ hb => ?_
        have hx : x = g := by simpa using hb
        subst hx
        simp
      have hcountQ : ((m0.train texts).ngramCounts g : ℚ) ≤
          ((m0.train texts).contextCounts g.dropLast : ℚ) := by exact_mod_cast hcount
      have hc1 : (1 : ℚ) ≤ ((m0.train texts).contextCounts g.dropLast : ℚ) := by
        exact_mod_cast Nat.pos_of_ne_zero hcz
      rw [div_le_one (by linarith)]
      linarith
  · intro ctx hctx
    have hczero : (m0.train texts).contextCounts ctx ≠ 0 := Nat.pos_iff_ne_zero.mp hctx
    have hn2 : 1 < m0.n := by
      by_contra hh
      apply hczero
      show (if 1 < m0.n then
        ((trainedGrams m0.n texts).map List.dropLast).count ctx else 0) = 0
      rw [if_neg hh]
    have hterm : ∀ c ∈ (m0.train texts).vocab,
        (m0.train texts).probQ (ctx ++ [c]) (some ctx) =
          (((m0.train texts).ngramCounts (ctx ++ [c]) : ℚ) + m0.smoothing) /
            (((m0.train texts).contextCounts ctx : ℚ) +
              m0.smoothing * ((m0.train texts).vocab.card : ℚ)) := by
      intro c _
      simp only [NGramModel.probQ, hsm]
      rw [if_neg hczero]
    have hkey : ∑ c ∈ (m0.train texts).vocab,
        (m0.train texts).ngramCounts (ctx ++ [c]) =
        (m0.train texts).contextCounts ctx := by
      have hcvt : ∀ g ∈ trainedGrams m0.n texts, g.dropLast = ctx →
          ∃ c ∈ (m0.train texts).vocab, g = ctx ++ [c] := by
        intro g hg hd
        have hglen : g.length = m0.n := length_of_mem_trainedGrams _ _ _ hg
        have hgne : g ≠ [] := by
          intro h
          rw [h] at hglen
          simp at hglen
          omega
        refine ⟨g.getLast hgne, ?_, ?_⟩
        · show g.getLast hgne ∈ (trainedGrams m0.n texts).flatten.toFinset
          rw [List.mem_toFinset, List.mem_flatten]
          exact ⟨g, hg, List.getLast_mem hgne⟩
        · conv_lhs => rw [← List.dropLast_append_getLast hgne]
          rw [hd]
      calc ∑ c ∈ (m0.train texts).vocab, (m0.train texts).ngramCounts (ctx ++ [c])
          = ∑ c ∈ (m0.train texts).vocab,
              (trainedGrams m0.n texts).count (ctx ++ [c]) := rfl
        _ = (trainedGrams m0.n texts).countP (fun g => g.dropLast == ctx) :=
            sum_count_append_eq_countP (m0.train texts).vocab ctx
              (trainedGrams m0.n texts) hcvt
        _ = (m0.train texts).contextCounts ctx := by
            show _ = (if 1 < m0.n then
              ((trainedGrams m0.n texts).map List.dropLast).count ctx else 0)
            rw [if_pos hn2, count_map_dropLast]
    have hc1 : (0 : ℚ) < ((m0.train texts).contextCounts ctx : ℚ) := by
      exact_mod_cast hctx
    have hden : (0 : ℚ) < ((m0.train texts).contextCounts ctx : ℚ) +
        m0.smoothing * ((m0.train texts).vocab.card : ℚ) := by linarith
    rw [Finset.sum_congr rfl hterm, ← Finset.sum_div]
    have hnum : ∑ c ∈ (m0.train texts).vocab,
        (((m0.train texts).ngramCounts (ctx ++ [c]) : ℚ) + m0.smoothing) =
        ((m0.train texts).contextCounts ctx : ℚ) +
          ((m0.train texts).vocab.card : ℚ) * m0.smoothing := by
      rw [Finset.sum_add_distrib, Finset.sum_const, nsmul_eq_mul]
      congr 1
      rw [← Nat.cast_sum]
      exact_mod_cast hkey
    rw [hnum, div_eq_one_iff_eq (ne_of_gt hden)]
    ring
  · intro hn2 ctx hczero
    have hcount0 : ∀ c, (m0.train texts).ngramCounts (ctx ++ [c]) = 0 := by
      intro c
      have hctxP : (m0.train texts).contextCounts ctx =
          (trainedGrams m0.n texts).countP (fun x => x.dropLast == ctx) := by
        show (if 1 < m0.n then
          ((trainedGrams m0.n texts).map List.dropLast).count ctx else 0) = _
        rw [if_pos hn2, count_map_dropLast]
      have hle : (m0.train texts).ngramCounts (ctx ++ [c]) ≤
          (m0.train texts).contextCounts ctx := by
        rw [hctxP]
        show (trainedGrams m0.n texts).count (ctx ++ [c]) ≤ _
        rw [List.count_eq_countP]
        refine List.countP_mono_left fun x _ hb => ?_
        have hx : x = ctx ++ [c] := by simpa using hb
        subst hx
        simp
      omega
    have hterm0 : ∀ c ∈ (m0.train texts).vocab,
        (m0.train texts).probQ (ctx ++ [c]) (some ctx) =
          m0.smoothing /
            (((m0.train texts).totalNgrams : ℚ) +
              m0.smoothing * ((m0.train texts).vocab.card : ℚ)) := by
      intro c _
      simp only [NGramModel.probQ, hsm]
      rw [if_pos hczero, hcount0 c]
      norm_num
    rw [Finset.sum_congr rfl hterm0, Finset.sum_const, nsmul_eq_mul]
    ring

/-- Witness for the amended C3 at the concrete bigram model parameters of
`mW`. -/
theorem claimC3_probability_range_amended_witness :
    0 < (initModel 2 1).n ∧ 0 < (initModel 2 1).smoothing ∧
    0 < ((initModel 2 1).train corpusW).totalNgrams ∧
    ((∀ g ctx, 0 < ((initModel 2 1).train corpusW).probQ g ctx) ∧
    (∀ g, ((initModel 2 1).train corpusW).probQ g none ≤ 1) ∧
    (∀ g, ((initModel 2 1).train corpusW).probQ g (some g.dropLast) ≤ 1) ∧
    (∀ ctx, 0 < ((initModel 2 1).train corpusW).contextCounts ctx →
      ∑ c ∈ ((initModel 2 1).train corpusW).vocab,
        ((initModel 2 1).train corpusW).probQ (ctx ++ [c]) (some ctx) = 1) ∧
    (1 < (initModel 2 1).n →
      ∀ ctx, ((initModel 2 1).train corpusW).contextCounts ctx = 0 →
      ∑ c ∈ ((initModel 2 1).train corpusW).vocab,
        ((initModel 2 1).train corpusW).probQ (ctx ++ [c]) (some ctx) =
          (initModel 2 1).smoothing *
              (((initModel 2 1).train corpusW).vocab.card : ℚ) /
            ((((initModel 2 1).train corpusW).totalNgrams : ℚ) +
              (initModel 2 1).smoothing *
                (((initModel 2 1).train corpusW).vocab.card : ℚ)))) :=
  ⟨by decide, by decide, by decide,
    claimC3_probability_range_amended (initModel 2 1) corpusW
      (by decide) (by decide) (by decide)⟩

/-- Unfolding one step of the `process_text` loop. -/
theorem stateAfter_succ (m : NGramModel) (ws : ℕ) (text : List Char) (k : ℕ)
    (hk : k < (hehPositions text).length) :
    stateAfter m ws text (k + 1) =
      m.processStep ws (stateAfter m ws text k) ((hehPositions text).getD k 0) := by
  unfold stateAfter
  rw [List.take_succ, List.getElem?_eq_getElem hk, Option.toList_some,
    List.foldl_append, List.foldl_cons, List.foldl_nil,
    List.getD_eq_getElem?_getD, List.getElem?_eq_getElem hk, Option.getD_some]

/-- C1: `process_text` records the marker positions once from the original
text and folds over them in ascending order from state (text, 0); at step k
it calls `decide` on the CURRENT buffer at original position + offset, the
offset grows by exactly 1 on `insert_zwnj` and is unchanged otherwise; in
particular with two or more markers, after a first-step insertion the second
marker's decision is taken on the post-edit buffer at its original position
plus 1. -/
theorem claimC1_offset_bookkeeping (m : NGramModel) (text : List Char)
    (wsOpt : Option ℕ) (hm : m.isTrained = true) :
    (m.process_text text wsOpt =
      .ok ((stateAfter m (wsOpt.getD (m.n * 2)) text (hehPositions text).length).1)) ∧
    stateAfter m (wsOpt.getD (m.n * 2)) text 0 = (text, 0) ∧
    (∀ k, k < (hehPositions text).length →
      stateAfter m (wsOpt.getD (m.n * 2)) text (k + 1) =
        applyBest (stateAfter m (wsOpt.getD (m.n * 2)) text k)
          (m.decideOptions (stateAfter m (wsOpt.getD (m.n * 2)) text k).1
            ((hehPositions text).getD k 0 +
              (stateAfter m (wsOpt.getD (m.n * 2)) text k).2)
            (wsOpt.getD (m.n * 2))).bestOption
          ((hehPositions text).getD k 0 +
            (stateAfter m (wsOpt.getD (m.n * 2)) text k).2) ∧
      (stateAfter m (wsOpt.getD (m.n * 2)) text (k + 1)).2 =
        (stateAfter m (wsOpt.getD (m.n * 2)) text k).2 +
          (if (m.decideOptions (stateAfter m (wsOpt.getD (m.n * 2)) text k).1
                ((hehPositions text).getD k 0 +
                  (stateAfter m (wsOpt.getD (m.n * 2)) text k).2)
                (wsOpt.getD (m.n * 2))).bestOption = ZOption.insert_zwnj
           then 1 else 0)) ∧
    (∀ p1 p2 rest, hehPositions text = p1 :: p2 :: rest →
      (m.decideOptions text p1 (wsOpt.getD (m.n * 2))).bestOption =
        ZOption.insert_zwnj →
      stateAfter m (wsOpt.getD (m.n * 2)) text 1 =
        (pyInsert text (p1 + 1) zwnjChar, 1) ∧
      stateAfter m (wsOpt.getD (m.n * 2)) text 2 =
        applyBest (pyInsert text (p1 + 1) zwnjChar, 1)
          (m.decideOptions (pyInsert text (p1 + 1) zwnjChar) (p2 + 1)
            (wsOpt.getD (m.n * 2))).bestOption (p2 + 1)) := by
  refine ⟨?_, rfl, ?_, ?_⟩
  · simp only [NGramModel.process_text, hm, Bool.true_eq_false, if_false]
    unfold stateAfter
    rw [List.take_length]
  · intro k hk
    constructor
    · rw [stateAfter_succ m _ text k hk]
      rfl
    · rw [stateAfter_succ m _ text k hk]
      simp only [NGramModel.processStep]
      rcases hb : (m.decideOptions (stateAfter m (wsOpt.getD (m.n * 2)) text k).1
          ((hehPositions text).getD k 0 +
            (stateAfter m (wsOpt.getD (m.n * 2)) text k).2)
          (wsOpt.getD (m.n * 2))).bestOption <;>
        simp [applyBest, hb]
  · intro p1 p2 rest hp hbest
    have hk0 : 0 < (hehPositions text).length := by
      rw [hp]
      simp
    have h1 : stateAfter m (wsOpt.getD (m.n * 2)) text 1 =
        (pyInsert text (p1 + 1) zwnjChar, 1) := by
      rw [stateAfter_succ m _ text 0 hk0]
      show m.processStep _ (text, 0) ((hehPositions text).getD 0 0) = _
      rw [hp]
      simp only [List.getD_cons_zero, NGramModel.processStep, Nat.add_zero]
      rw [hbest]
      rfl
    refine ⟨h1, ?_⟩
    have hk1 : 1 < (hehPositions text).length := by
      rw [hp]
      simp
    rw [stateAfter_succ m _ text 1 hk1, h1, hp]
    rfl

/-- Witness for C1 at the trained model `mW` on the two-marker text `tW`. -/
theorem claimC1_offset_bookkeeping_witness :
    mW.isTrained = true ∧
    ((mW.process_text tW none =
      .ok ((stateAfter mW (Option.getD none (mW.n * 2)) tW
        (hehPositions tW).length).1)) ∧
    stateAfter mW (Option.getD none (mW.n * 2)) tW 0 = (tW, 0) ∧
    (∀ k, k < (hehPositions tW).length →
      stateAfter mW (Option.getD none (mW.n * 2)) tW (k + 1) =
        applyBest (stateAfter mW (Option.getD none (mW.n * 2)) tW k)
          (mW.decideOptions (stateAfter mW (Option.getD none (mW.n * 2)) tW k).1
            ((hehPositions tW).getD k 0 +
              (stateAfter mW (Option.getD none (mW.n * 2)) tW k).2)
            (Option.getD none (mW.n * 2))).bestOption
          ((hehPositions tW).getD k 0 +
            (stateAfter mW (Option.getD none (mW.n * 2)) tW k).2) ∧
      (stateAfter mW (Option.getD none (mW.n * 2)) tW (k + 1)).2 =
        (stateAfter mW (Option.getD none (mW.n * 2)) tW k).2 +
          (if (mW.decideOptions (stateAfter mW (Option.getD none (mW.n * 2)) tW k).1
                ((hehPositions tW).getD k 0 +
                  (stateAfter mW (Option.getD none (mW.n * 2)) tW k).2)
                (Option.getD none (mW.n * 2))).bestOption = ZOption.insert_zwnj
           then 1 else 0)) ∧
    (∀ p1 p2 rest, hehPositions tW = p1 :: p2 :: rest →
      (mW.decideOptions tW p1 (Option.getD none (mW.n * 2))).bestOption =
        ZOption.insert_zwnj →
      stateAfter mW (Option.getD none (mW.n * 2)) tW 1 =
        (pyInsert tW (p1 + 1) zwnjChar, 1) ∧
      stateAfter mW (Option.getD none (mW.n * 2)) tW 2 =
        applyBest (pyInsert tW (p1 + 1) zwnjChar, 1)
          (mW.decideOptions (pyInsert tW (p1 + 1) zwnjChar) (p2 + 1)
            (Option.getD none (mW.n * 2))).bestOption (p2 + 1))) :=
  ⟨rfl, claimC1_offset_bookkeeping mW tW none rfl⟩
